import Mathlib

/-!
# Shallow embedding of the `connect4` rules engine

The model mirrors `src/lib.rs`: the board is a 6×7 grid of squares
(rows indexed bottom `0` to top `ROWS - 1`), pieces are dropped by
gravity, and the winner scan enumerates rows, columns and diagonals
exactly as the source builds its `lines` vector.  The grid is embedded
as a total function `Nat → Nat → Square`; only indices with
`r < ROWS`, `c < COLS` are ever read or written by the operations
below, matching the in-bounds array accesses of the source.
-/

/-- Size of the game board (source constant `ROWS`). -/
abbrev ROWS : Nat := 6

/-- Size of the game board (source constant `COLS`). -/
abbrev COLS : Nat := 7

/-- A player of the game (source enum `Player`). -/
inductive Player where
  | Black
  | White
deriving DecidableEq, Repr, Fintype

/-- Get the opponent of a player (source `Player::opponent`). -/
def Player.opponent : Player → Player
  | Player.Black => Player.White
  | Player.White => Player.Black

/-- A square of the game (source enum `Square`). -/
inductive Square where
  | Piece (player : Player)
  | Empty
deriving DecidableEq, Repr

/-- Check if a square is taken (source `Square::taken`). -/
def Square.taken : Square → Bool
  | Square.Piece _ => true
  | Square.Empty => false

/-- The grid `[[Square; COLS]; ROWS]`, embedded as a total function;
`b r c` is the cell at row `r`, column `c`. -/
abbrev Board : Type := Nat → Nat → Square

/-- Create a new Board (source `Board::new`): all squares empty. -/
def Board.new : Board := fun _ _ => Square.Empty

/-- A board position to play a piece (source struct `Turn`). -/
structure Turn where
  player : Player
  pos : Nat
deriving DecidableEq, Repr

/-- Create a new Turn (source `Turn::new`): fails when `pos ≥ COLS`. -/
def Turn.new (player : Player) (pos : Nat) : Option Turn :=
  if pos < COLS then some { player := player, pos := pos } else none

/-- The columns enumerated by `Board::turns`: every `col` in `0..COLS`
whose top square `self.0[ROWS - 1][col]` is not taken, in order. -/
def Board.turnCols (b : Board) : List Nat :=
  (List.range COLS).filter fun col => !(b (ROWS - 1) col).taken

/-- Get all legal turns (source `Board::turns`): one `Turn::new player col`
per enumerated column.  The source unwraps the `Option` with an
`unreachable!()` arm; the model keeps the successful results. -/
def Board.turns (b : Board) (player : Player) : List Turn :=
  (Board.turnCols b).filterMap (Turn.new player)

/-- Overwrite the square at row `r`, column `c`. -/
def Board.update (b : Board) (r c : Nat) (s : Square) : Board :=
  fun r' c' => if r' = r ∧ c' = c then s else b r' c'

/-- The row loop of `Board::play`: scan the given rows in order, place a
piece at the first row whose square in column `t.pos` is not taken. -/
def Board.playRows (b : Board) (t : Turn) : List Nat → Board × Bool
  | [] => (b, false)
  | r :: rs =>
    if (b r t.pos).taken then Board.playRows b t rs
    else (Board.update b r t.pos (Square.Piece t.player), true)

/-- Play a turn (source `Board::play`): rows are scanned bottom (`0`) to
top (`ROWS - 1`). -/
def Board.play (b : Board) (t : Turn) : Board × Bool :=
  Board.playRows b t (List.range ROWS)

/-- The length-4 windows of a list, in order (source `v.windows(4)`). -/
def windows4 {α : Type} : List α → List (List α)
  | a :: b :: c :: d :: rest => [a, b, c, d] :: windows4 (b :: c :: d :: rest)
  | _ => []

/-- The body of the `connect4` closure on one window: a win iff the
window holds exactly one distinct square value (`unique().count() == 1`)
and its last square is a piece. -/
def winOf (four : List Square) : Option Player :=
  if four.dedup.length = 1 then
    match four.getLast? with
    | some (Square.Piece p) => some p
    | _ => none
  else none

/-- The `connect4` closure of `Board::winner`: return the player of the
first winning window of the line, if any. -/
def connect4 (v : List Square) : Option Player :=
  (windows4 v).findSome? winOf

/-- The index pairs `(row, col)` of each line pushed by `Board::winner`,
in push order: all `ROWS` rows; the `for col in 0..ROWS` column loop;
the `for i in 0..ROWS` diagonal loop pushing `(0..i).rev().zip(0..COLS)`
then `(i..ROWS).zip(0..COLS)`; the `for i in 1..COLS` diagonal loop
pushing `(i..COLS).zip(0..ROWS)` then `(i..COLS).rev().zip(0..ROWS)`
(those two zip column-first, so the pair is swapped to `(row, col)`). -/
def Board.lineIdx : List (List (Nat × Nat)) :=
  ((List.range ROWS).map fun r => (List.range COLS).map fun c => (r, c))
    ++ ((List.range ROWS).map fun col =>
          (List.range ROWS).map fun r => (r, col))
    ++ ((List.range ROWS).flatMap fun i =>
          [(List.range i).reverse.zip (List.range COLS),
            (List.range' i (ROWS - i)).zip (List.range COLS)])
    ++ ((List.range' 1 (COLS - 1)).flatMap fun i =>
          [((List.range' i (COLS - i)).zip (List.range ROWS)).map
              fun cr => (cr.2, cr.1),
            ((List.range' i (COLS - i)).reverse.zip (List.range ROWS)).map
              fun cr => (cr.2, cr.1)])

/-- The `lines` vector of `Board::winner`: each index line read off the
grid. -/
def Board.lines (b : Board) : List (List Square) :=
  Board.lineIdx.map fun il => il.map fun rc => b rc.1 rc.2

/-- Get the winner of the game (source `Board::winner`): scan every line
of length at least 4 and return the first win found. -/
def Board.winner (b : Board) : Option Player :=
  ((Board.lines b).filter fun it => 4 ≤ it.length).findSome? connect4

/-- Check if the game is over (source `Board::over`). -/
def Board.over (b : Board) : Bool :=
  ((List.range COLS).all fun c => (b (ROWS - 1) c).taken) || (Board.winner b).isSome

/-- Connect4 game (source struct `Connect4`): a board plus the current
player. -/
structure Connect4 where
  board : Board
  player : Player

/-- Create a new Connect4 game (source `Connect4::new` via `Default`):
empty board, black moves first. -/
def Connect4.new : Connect4 :=
  { board := Board.new, player := Player.Black }

/-- Get all legal turns (source `<Connect4 as Game>::turns`). -/
def Connect4.turns (g : Connect4) : List Turn :=
  Board.turns g.board g.player

/-- Play a turn (source `<Connect4 as Game>::play`): reject a turn of the
wrong player; otherwise delegate to `Board::play` and switch the player
unconditionally, returning the delegated result. -/
def Connect4.play (g : Connect4) (t : Turn) : Connect4 × Bool :=
  if t.player ≠ g.player then (g, false)
  else
    let bp := Board.play g.board t
    ({ board := bp.1, player := g.player.opponent }, bp.2)

/-- Check if the game is over (source `<Connect4 as Game>::over`). -/
def Connect4.over (g : Connect4) : Bool :=
  Board.over g.board

/-- Get the winner (source `<Connect4 as Game>::winner`). -/
def Connect4.winner (g : Connect4) : Option Player :=
  Board.winner g.board

/-! ### Derived observations used by the specification claims -/

/-- Number of taken squares in column `c` (the column's occupied count). -/
def Board.colCount (b : Board) (c : Nat) : Nat :=
  (List.range ROWS).countP fun r => (b r c).taken

/-- Every cell `(row, col)` of the grid. -/
def allCells : List (Nat × Nat) :=
  (List.range ROWS).flatMap fun r => (List.range COLS).map fun c => (r, c)

/-- Number of pieces owner `p` has on the board. -/
def Board.count (b : Board) (p : Player) : Nat :=
  allCells.countP fun rc => decide (b rc.1 rc.2 = Square.Piece p)

/-- Check that a length-4 index window advances in one of the four scan
directions (row, column, upward-right, or upward-left traversed in either
order) and stays inside the grid. -/
def dirOk : List (Nat × Nat) → Bool
  | [(r1, c1), (r2, c2), (r3, c3), (r4, c4)] =>
    decide (r1 < ROWS ∧ r4 < ROWS ∧ c1 < COLS ∧ c4 < COLS)
      && (decide (r2 = r1 ∧ r3 = r1 ∧ r4 = r1
            ∧ c2 = c1 + 1 ∧ c3 = c1 + 2 ∧ c4 = c1 + 3)
        || decide (c2 = c1 ∧ c3 = c1 ∧ c4 = c1
            ∧ r2 = r1 + 1 ∧ r3 = r1 + 2 ∧ r4 = r1 + 3)
        || decide (r2 = r1 + 1 ∧ r3 = r1 + 2 ∧ r4 = r1 + 3
            ∧ c2 = c1 + 1 ∧ c3 = c1 + 2 ∧ c4 = c1 + 3)
        || decide (r1 = r2 + 1 ∧ r2 = r3 + 1 ∧ r3 = r4 + 1
            ∧ c2 = c1 + 1 ∧ c3 = c1 + 2 ∧ c4 = c1 + 3)
        || decide (r2 = r1 + 1 ∧ r3 = r1 + 2 ∧ r4 = r1 + 3
            ∧ c1 = c2 + 1 ∧ c2 = c3 + 1 ∧ c3 = c4 + 1))
  | _ => false

/-- A board whose only pieces are four black pieces filling rows 0..3 of
the last column (column `COLS - 1 = 6`). -/
def colSixBoard : Board := fun r c =>
  if c = 6 ∧ r < 4 then Square.Piece Player.Black else Square.Empty

/-- A board whose only pieces are four black pieces on the upward-left
diagonal `(2,6),(3,5),(4,4),(5,3)` (constant `row + col = 8`). -/
def upLeftBoard : Board := fun r c =>
  if r + c = 8 ∧ r < ROWS then Square.Piece Player.Black else Square.Empty

/-- A board whose column 0 is completely full (alternating colours, no
four-in-a-row anywhere), all other columns empty. -/
def fullColBoard : Board := fun r c =>
  if c = 0 ∧ r < ROWS then
    (if r % 2 = 0 then Square.Piece Player.Black else Square.Piece Player.White)
  else Square.Empty

/-- The game state with `fullColBoard` and black to move. -/
def fullColGame : Connect4 :=
  { board := fullColBoard, player := Player.Black }

/-- Some row, column, upward-right diagonal or upward-left diagonal of the
grid holds four consecutive cells occupied by `p`. -/
def hasLineWin (b : Board) (p : Player) : Prop :=
  (∃ r c, r < ROWS ∧ c + 3 < COLS ∧ ∀ k < 4, b r (c + k) = Square.Piece p)
    ∨ (∃ r c, r + 3 < ROWS ∧ c < COLS ∧ ∀ k < 4, b (r + k) c = Square.Piece p)
    ∨ (∃ r c, r + 3 < ROWS ∧ c + 3 < COLS ∧
        ∀ k < 4, b (r + k) (c + k) = Square.Piece p)
    ∨ (∃ r c, r + 3 < ROWS ∧ c + 3 < COLS ∧
        ∀ k < 4, b (r + k) (c + (3 - k)) = Square.Piece p)

/-- The gravity invariant: within every column, no taken square ever sits
above an empty one. -/
def Gravity (b : Board) : Prop :=
  ∀ c < COLS, ∀ r' < ROWS, ∀ r < r', (b r' c).taken = true → (b r c).taken = true

/-- Boards reachable from the new (empty) board by `Board::play` calls with
well-formed turns (a `Turn` always has `pos < COLS` by construction). -/
inductive Reachable : Board → Prop
  | init : Reachable Board.new
  | step {b : Board} (t : Turn) (hpos : t.pos < COLS) :
      Reachable b → Reachable (Board.play b t).1

/-! ### Helper lemmas -/

theorem Square.taken_eq_false_iff (s : Square) :
    s.taken = false ↔ s = Square.Empty := by
  cases s <;> simp [Square.taken]

theorem Square.taken_eq_true_iff (s : Square) :
    s.taken = true ↔ ∃ p, s = Square.Piece p := by
  cases s <;> simp [Square.taken]

theorem mem_turnCols_iff (b : Board) (c : Nat) :
    c ∈ Board.turnCols b ↔ c < COLS ∧ (b (ROWS - 1) c).taken = false := by
  simp [Board.turnCols, List.mem_filter, List.mem_range]

theorem filterMap_turnNew (p : Player) (l : List Nat)
    (h : ∀ c ∈ l, c < COLS) :
    l.filterMap (Turn.new p) = l.map fun c => { player := p, pos := c } := by
  induction l with
  | nil => rfl
  | cons x xs ih =>
    have hx : x < COLS := h x (List.mem_cons_self x xs)
    rw [List.filterMap_cons, List.map_cons, Turn.new, if_pos hx,
      ih fun c hc => h c (List.mem_cons_of_mem x hc)]

theorem turns_eq_map (b : Board) (p : Player) :
    Board.turns b p = (Board.turnCols b).map fun c => { player := p, pos := c } := by
  rw [Board.turns, filterMap_turnNew]
  intro c hc
  exact ((mem_turnCols_iff b c).mp hc).1

/-! ### C6, C7, C8, C10 -/

/-- Claim C6: for every board and every current owner, `Board::turns`
returns exactly one `Turn` per column whose topmost cell (row `ROWS - 1`)
is not taken, in strictly ascending column order, each turn carrying the
current owner; full columns contribute nothing, so there are at most
`COLS` turns with pairwise distinct columns. -/
theorem turns_spec (b : Board) (p : Player) :
    ((Board.turns b p).map Turn.pos
        = (List.range COLS).filter fun c => !(b (ROWS - 1) c).taken)
    ∧ (∀ t ∈ Board.turns b p, t.player = p)
    ∧ List.Sorted (· < ·) ((Board.turns b p).map Turn.pos)
    ∧ ((Board.turns b p).map Turn.pos).Nodup
    ∧ (Board.turns b p).length ≤ COLS
    ∧ ∀ c, ({ player := p, pos := c } : Turn) ∈ Board.turns b p
        ↔ c < COLS ∧ (b (ROWS - 1) c).taken = false := by
  have hmap := turns_eq_map b p
  have hpos : (Board.turns b p).map Turn.pos = Board.turnCols b := by
    rw [hmap, List.map_map]
    exact List.map_id _
  have hsorted : List.Sorted (· < ·) (Board.turnCols b) :=
    List.Pairwise.sublist (List.filter_sublist _) (List.pairwise_lt_range COLS)
  refine ⟨by rw [hpos]; rfl, ?_, ?_, ?_, ?_, ?_⟩
  · intro t ht
    rw [hmap] at ht
    obtain ⟨c, _, rfl⟩ := List.mem_map.mp ht
    rfl
  · rw [hpos]; exact hsorted
  · rw [hpos]
    exact hsorted.nodup
  · calc (Board.turns b p).length
        = (Board.turnCols b).length := by rw [hmap, List.length_map]
      _ ≤ (List.range COLS).length := (List.filter_sublist _).length_le
      _ = COLS := List.length_range COLS
  · intro c
    rw [hmap]
    constructor
    · intro h
      obtain ⟨c', hc', heq⟩ := List.mem_map.mp h
      have : c' = c := congrArg Turn.pos heq
      subst this
      exact (mem_turnCols_iff b _).mp hc'
    · intro h
      exact List.mem_map.mpr ⟨c, (mem_turnCols_iff b c).mpr h, rfl⟩

/-- Witness for `turns_spec` at the new board: the turn for column 0 is
enumerated and carries the current owner. -/
theorem turns_spec_witness :
    ({ player := Player.Black, pos := 0 } : Turn) ∈ Board.turns Board.new Player.Black
      ∧ ({ player := Player.Black, pos := 0 } : Turn).player = Player.Black :=
  ⟨by decide, (turns_spec Board.new Player.Black).2.1 _ (by decide)⟩

/-- Claim C7: `Connect4::play` with a turn of the wrong player returns
`false` and mutates nothing: board and current player are unchanged. -/
theorem play_rejects_wrong_player (g : Connect4) (t : Turn)
    (h : t.player ≠ g.player) :
    Connect4.play g t = (g, false) := by
  rw [Connect4.play, if_pos h]

/-- Witness for `play_rejects_wrong_player`: a white turn on a fresh game
(black to move) is rejected without mutation. -/
theorem play_rejects_wrong_player_witness :
    ({ player := Player.White, pos := 0 } : Turn).player ≠ Connect4.new.player
      ∧ Connect4.play Connect4.new { player := Player.White, pos := 0 }
        = (Connect4.new, false) :=
  ⟨by decide, play_rejects_wrong_player Connect4.new _ (by decide)⟩

/-- Claim C8: `Board::over` is true iff the top row (`ROWS - 1`) is
entirely taken or `Board::winner` returns a value; it reads only the
grid. -/
theorem over_iff (b : Board) :
    Board.over b = true
      ↔ (∀ c < COLS, (b (ROWS - 1) c).taken = true)
        ∨ ∃ p, Board.winner b = some p := by
  rw [Board.over, Bool.or_eq_true, List.all_eq_true]
  constructor
  · rintro (h | h)
    · exact Or.inl fun c hc => h c (List.mem_range.mpr hc)
    · exact Or.inr (Option.isSome_iff_exists.mp h)
  · rintro (h | h)
    · exact Or.inl fun c hc => h c (List.mem_range.mp hc)
    · exact Or.inr (Option.isSome_iff_exists.mpr h)

/-- Claim C10: every column enumerated by `Board::turns` is strictly less
than `COLS`, so `Turn::new` always succeeds there and the `unreachable!()`
arm can never execute; in particular no enumerated column is dropped. -/
theorem turnCols_lt_cols (b : Board) (p : Player) :
    (∀ c ∈ Board.turnCols b, c < COLS ∧ (Turn.new p c).isSome = true)
      ∧ (Board.turns b p).length = (Board.turnCols b).length := by
  constructor
  · intro c hc
    have hlt : c < COLS := ((mem_turnCols_iff b c).mp hc).1
    exact ⟨hlt, by rw [Turn.new, if_pos hlt]; rfl⟩
  · rw [turns_eq_map, List.length_map]

/-- Witness for `turnCols_lt_cols`: column 0 on the new board. -/
theorem turnCols_lt_cols_witness :
    (0 ∈ Board.turnCols Board.new)
      ∧ (0 < COLS ∧ (Turn.new Player.Black 0).isSome = true) :=
  ⟨by decide, (turnCols_lt_cols Board.new Player.Black).1 0 (by decide)⟩

/-! ### C5 and C9: move application -/

theorem find?_range'_first {p : Nat → Bool} :
    ∀ (k s r : Nat), (List.range' s k).find? p = some r →
      p r = true ∧ s ≤ r ∧ r < s + k ∧ ∀ r', s ≤ r' → r' < r → p r' = false := by
  intro k
  induction k with
  | zero => intro s r h; simp [List.range'] at h
  | succ k ih =>
    intro s r h
    rw [List.range'_succ] at h
    by_cases hp : p s
    · rw [List.find?_cons_of_pos _ hp] at h
      obtain rfl : s = r := by injection h
      exact ⟨hp, Nat.le_refl s, by omega, fun r' h1 h2 => absurd h1 (by omega)⟩
    · rw [List.find?_cons_of_neg _ hp] at h
      obtain ⟨h1, h2, h3, h4⟩ := ih (s + 1) r h
      refine ⟨h1, by omega, by omega, fun r' hr1 hr2 => ?_⟩
      rcases Nat.eq_or_lt_of_le hr1 with heq | hlt
      · rw [← heq]
        exact Bool.eq_false_iff.mpr hp
      · exact h4 r' hlt hr2

theorem playRows_eq_find (b : Board) (t : Turn) (rs : List Nat) :
    Board.playRows b t rs =
      match rs.find? (fun r => !(b r t.pos).taken) with
      | some r => (Board.update b r t.pos (Square.Piece t.player), true)
      | none => (b, false) := by
  induction rs with
  | nil => rfl
  | cons r rs ih =>
    by_cases h : (b r t.pos).taken
    · rw [Board.playRows, if_pos h, ih,
        List.find?_cons_of_neg _ (by simp [h])]
    · rw [Board.playRows, if_neg h,
        List.find?_cons_of_pos _ (by simp [h])]

theorem countP_update_succ {p q : Nat → Bool} {r : Nat} :
    ∀ {l : List Nat}, l.Nodup → r ∈ l → q r = false → p r = true →
      (∀ x ∈ l, x ≠ r → p x = q x) → l.countP p = l.countP q + 1 := by
  intro l
  induction l with
  | nil => intro _ hr; cases hr
  | cons x xs ih =>
    intro hnd hr hq hp hpq
    obtain ⟨hx, hxs⟩ := List.nodup_cons.mp hnd
    rw [List.countP_cons, List.countP_cons]
    rcases List.mem_cons.mp hr with heq | hr'
    · have hcong : xs.countP p = xs.countP q := by
        apply List.countP_congr
        intro a ha
        have hne : a ≠ r := by
          rintro rfl
          exact hx (heq ▸ ha)
        rw [hpq a (List.mem_cons_of_mem _ ha) hne]
      rw [hcong, ← heq, hp, hq]
      simp
    · have hne : x ≠ r := fun h => hx (h ▸ hr')
      rw [hpq x (List.mem_cons_self _ _) hne,
        ih hxs hr' hq hp fun a ha => hpq a (List.mem_cons_of_mem _ ha)]
      omega

theorem update_taken_self (b : Board) (r c : Nat) (p : Player) :
    ((Board.update b r c (Square.Piece p)) r c).taken = true := by
  simp [Board.update, Square.taken]

theorem update_ne (b : Board) (r c : Nat) (s : Square) {r' c' : Nat}
    (h : ¬(r' = r ∧ c' = c)) : Board.update b r c s r' c' = b r' c' := by
  simp [Board.update, h]

/-- Claim C5: `Board::play` scans rows from bottom (`0`) to top
(`ROWS - 1`); for a column with an empty cell it sets the first (lowest)
empty cell to the mover's piece, returns `true`, and increases that
column's occupied count by exactly 1; for a full column it returns `false`
with the grid unchanged. -/
theorem play_drop_spec (b : Board) (t : Turn) (hpos : t.pos < COLS) :
    ((∃ r < ROWS, b r t.pos = Square.Empty) →
      ∃ r < ROWS, b r t.pos = Square.Empty
        ∧ (∀ r' < r, (b r' t.pos).taken = true)
        ∧ Board.play b t = (Board.update b r t.pos (Square.Piece t.player), true)
        ∧ Board.colCount (Board.play b t).1 t.pos = Board.colCount b t.pos + 1)
    ∧ ((∀ r < ROWS, (b r t.pos).taken = true) → Board.play b t = (b, false)) := by
  constructor
  · rintro ⟨r0, hr0, he0⟩
    obtain ⟨r, hfind⟩ : ∃ r, (List.range ROWS).find? (fun r => !(b r t.pos).taken) = some r := by
      rcases hf : (List.range ROWS).find? (fun r => !(b r t.pos).taken) with _ | r
      · exfalso
        have := List.find?_eq_none.mp hf r0 (List.mem_range.mpr hr0)
        simp [he0, Square.taken] at this
      · exact ⟨r, rfl⟩
    have hfind' := hfind
    rw [List.range_eq_range'] at hfind'
    obtain ⟨hpr, _, hrlt, hbefore⟩ := find?_range'_first ROWS 0 r hfind'
    have hrROWS : r < ROWS := by omega
    have hempty : b r t.pos = Square.Empty := by
      apply (Square.taken_eq_false_iff _).mp
      simpa using hpr
    have hplay : Board.play b t = (Board.update b r t.pos (Square.Piece t.player), true) := by
      rw [Board.play, playRows_eq_find, hfind]
    refine ⟨r, hrROWS, hempty, ?_, hplay, ?_⟩
    · intro r' hr'
      have h := hbefore r' (Nat.zero_le r') hr'
      simpa using h
    · rw [hplay]
      apply countP_update_succ (List.nodup_range ROWS) (List.mem_range.mpr hrROWS)
      · exact (Square.taken_eq_false_iff _).mpr hempty
      · exact update_taken_self b r t.pos t.player
      · intro x _ hne
        exact congrArg Square.taken (update_ne b r t.pos _ fun hc => hne hc.1)
  · intro hfull
    rw [Board.play, playRows_eq_find]
    have : (List.range ROWS).find? (fun r => !(b r t.pos).taken) = none := by
      rw [List.find?_eq_none]
      intro x hx
      rw [hfull x (List.mem_range.mp hx)]
      simp
    rw [this]

/-- Witness for `play_drop_spec`: dropping black into column 3 of the new
board places the piece at row 0 and succeeds. -/
theorem play_drop_spec_witness :
    ((3 : Nat) < COLS)
      ∧ (∃ r < ROWS, Board.new r 3 = Square.Empty
        ∧ (∀ r' < r, (Board.new r' 3).taken = true)
        ∧ Board.play Board.new { player := Player.Black, pos := 3 }
            = (Board.update Board.new r 3 (Square.Piece Player.Black), true)
        ∧ Board.colCount (Board.play Board.new { player := Player.Black, pos := 3 }).1 3
            = Board.colCount Board.new 3 + 1) :=
  ⟨by decide,
    (play_drop_spec Board.new { player := Player.Black, pos := 3 } (by decide)).1
      ⟨0, by decide, rfl⟩⟩

theorem gravity_update {b : Board} (hg : Gravity b) (r0 c0 : Nat) (p : Player)
    (hbelow : ∀ r' < r0, (b r' c0).taken = true) :
    Gravity (Board.update b r0 c0 (Square.Piece p)) := by
  intro c hc r' hr' r hrr' htaken
  by_cases hA : r = r0 ∧ c = c0
  · rw [show Board.update b r0 c0 (Square.Piece p) r c = Square.Piece p by
      simp [Board.update, hA.1, hA.2]]
    rfl
  · rw [update_ne b r0 c0 _ hA]
    by_cases hB : r' = r0 ∧ c = c0
    · rw [hB.2]
      exact hbelow r (hB.1 ▸ hrr')
    · rw [update_ne b r0 c0 _ hB] at htaken
      exact hg c hc r' hr' r hrr' htaken

/-- Claim C9: every board reachable from the empty board by `Board::play`
satisfies the gravity invariant: within each column no taken square sits
above an empty one. -/
theorem reachable_gravity (b : Board) (h : Reachable b) : Gravity b := by
  induction h with
  | init =>
    intro c _ r' _ r _ htaken
    simp [Board.new, Square.taken] at htaken
  | step t hpos hreach ih =>
    rename_i b'
    rcases hcase : (List.range ROWS).find? (fun r => !(b' r t.pos).taken) with _ | r0
    · have hplay : Board.play b' t = (b', false) := by
        rw [Board.play, playRows_eq_find, hcase]
      rw [hplay]
      exact ih
    · have hplay : Board.play b' t
          = (Board.update b' r0 t.pos (Square.Piece t.player), true) := by
        rw [Board.play, playRows_eq_find, hcase]
      rw [hplay]
      have hfind' := hcase
      rw [List.range_eq_range'] at hfind'
      obtain ⟨hpr, _, hr0lt, hbefore⟩ := find?_range'_first ROWS 0 r0 hfind'
      have hbelow : ∀ r' < r0, (b' r' t.pos).taken = true := by
        intro r' hr'
        have h := hbefore r' (Nat.zero_le r') hr'
        simpa using h
      exact gravity_update ih r0 t.pos t.player hbelow

/-- Witness for `reachable_gravity`: the board after one black drop into
column 3 of the new board is reachable and satisfies gravity. -/
theorem reachable_gravity_witness :
    Gravity (Board.play Board.new { player := Player.Black, pos := 3 }).1 :=
  reachable_gravity _
    (Reachable.step { player := Player.Black, pos := 3 } (by decide) Reachable.init)

/-! ### C1, C2, C3: concrete boards exhibiting the source's behaviour -/

/-- Claim C1 (evaluation): `colSixBoard` holds a vertical four-in-a-row of
black in column 6, yet `Board::winner` returns `none` — the column loop
`for col in 0..ROWS` scans only columns `0..5` and misses column
`COLS - 1`. -/
theorem winner_misses_last_column :
    colSixBoard 0 6 = Square.Piece Player.Black
      ∧ colSixBoard 1 6 = Square.Piece Player.Black
      ∧ colSixBoard 2 6 = Square.Piece Player.Black
      ∧ colSixBoard 3 6 = Square.Piece Player.Black
      ∧ Board.winner colSixBoard = none := by
  refine ⟨rfl, rfl, rfl, rfl, ?_⟩
  decide

/-- Claim C2 (evaluation): `upLeftBoard` holds four consecutive black
cells on an up-left diagonal of length 4, yet `Board::winner` returns
`none` — the `(i..COLS).rev().zip(0..ROWS)` loop always re-anchors at
column `COLS - 1`, row 0, so every line it pushes is a prefix of the
single anti-diagonal `row + col = 6` and the diagonals with
`row + col ∈ {5, 7, 8}` are never scanned. -/
theorem winner_misses_up_left_diagonal :
    upLeftBoard 2 6 = Square.Piece Player.Black
      ∧ upLeftBoard 3 5 = Square.Piece Player.Black
      ∧ upLeftBoard 4 4 = Square.Piece Player.Black
      ∧ upLeftBoard 5 3 = Square.Piece Player.Black
      ∧ Board.winner upLeftBoard = none := by
  refine ⟨rfl, rfl, rfl, rfl, ?_⟩
  decide

/-- Claim C3 (evaluation): black drops into the full column 0;
`Board::play` fails (column full, grid unchanged) and `Connect4::play`
returns `false`, yet the current player still flips from black to white,
because the source calls `self.player.switch()` unconditionally after the
delegated `Board::play`. -/
theorem play_switches_player_on_failed_drop :
    Board.play fullColGame.board { player := Player.Black, pos := 0 }
        = (fullColGame.board, false)
      ∧ (Connect4.play fullColGame { player := Player.Black, pos := 0 }).2 = false
      ∧ fullColGame.player = Player.Black
      ∧ (Connect4.play fullColGame { player := Player.Black, pos := 0 }).1.player
          = Player.White
      ∧ (Connect4.play fullColGame { player := Player.Black, pos := 0 }).1.board
          = fullColGame.board :=
  ⟨rfl, rfl, rfl, rfl, rfl⟩

/-! ### C4: soundness of the winner scan -/

theorem lineIdx_nodup : ∀ il ∈ Board.lineIdx, il.Nodup := by decide

theorem lineIdx_cells : ∀ il ∈ Board.lineIdx, ∀ rc ∈ il, rc ∈ allCells := by
  decide

theorem lineIdx_windows_dirOk :
    ∀ il ∈ Board.lineIdx, ∀ w ∈ windows4 il, dirOk w = true := by decide

theorem windows4_mem_spec {α : Type} :
    ∀ (v w : List α), w ∈ windows4 v → w.length = 4 ∧ w <:+: v
  | a :: b :: c :: d :: rest, w, hw => by
    rw [windows4] at hw
    rcases List.mem_cons.mp hw with heq | hw'
    · subst heq
      exact ⟨rfl, ⟨[], rest, rfl⟩⟩
    · obtain ⟨hl, hinf⟩ := windows4_mem_spec (b :: c :: d :: rest) w hw'
      exact ⟨hl, List.infix_cons hinf⟩
  | [], w, hw => by simp [windows4] at hw
  | [a], w, hw => by simp [windows4] at hw
  | [a, b], w, hw => by simp [windows4] at hw
  | [a, b, c], w, hw => by simp [windows4] at hw

theorem infix_mem_windows4 {α : Type} :
    ∀ (v w : List α), w <:+: v → w.length = 4 → w ∈ windows4 v
  | a :: b :: c :: d :: rest, w, hinf, hlen => by
    rw [windows4]
    rcases List.infix_cons_iff.mp hinf with hpre | hinf'
    · obtain ⟨x1, x2, x3, x4, heq⟩ : ∃ x1 x2 x3 x4, w = [x1, x2, x3, x4] := by
        match w, hlen with
        | [x1, x2, x3, x4], _ => exact ⟨x1, x2, x3, x4, rfl⟩
      subst heq
      obtain ⟨t, ht⟩ := hpre
      simp only [List.cons_append, List.nil_append, List.cons.injEq] at ht
      obtain ⟨h1, h2, h3, h4, _⟩ := ht
      subst h1; subst h2; subst h3; subst h4
      exact List.mem_cons_self _ _
    · exact List.mem_cons_of_mem _ (infix_mem_windows4 _ w hinf' hlen)
  | [], w, hinf, hlen => by
    have h := hinf.length_le
    simp only [List.length_nil, List.length_cons] at h
    omega
  | [a], w, hinf, hlen => by
    have h := hinf.length_le
    simp only [List.length_nil, List.length_cons] at h
    omega
  | [a, b], w, hinf, hlen => by
    have h := hinf.length_le
    simp only [List.length_nil, List.length_cons] at h
    omega
  | [a, b, c], w, hinf, hlen => by
    have h := hinf.length_le
    simp only [List.length_nil, List.length_cons] at h
    omega

theorem map_window_preimage {α β : Type} (f : α → β) (l : List α)
    (w : List β) (h : w <:+: l.map f) : ∃ v, v <:+: l ∧ v.map f = w := by
  obtain ⟨s, t, hst⟩ := h
  refine ⟨(l.drop s.length).take w.length, ?_, ?_⟩
  · refine ⟨l.take s.length, (l.drop s.length).drop w.length, ?_⟩
    rw [List.append_assoc, List.take_append_drop, List.take_append_drop]
  · rw [List.map_take, List.map_drop, ← hst, List.append_assoc,
      List.drop_left, List.take_left]

theorem winOf_spec {w : List Square} {p : Player} (h : winOf w = some p) :
    ∀ s ∈ w, s = Square.Piece p := by
  rw [winOf] at h
  split at h
  case isTrue hded =>
    rcases hq : w.getLast? with _ | q
    · rw [hq] at h
      cases h
    · rw [hq] at h
      cases q with
      | Piece pq =>
        have hpq : pq = p := by injection h
        subst hpq
        have hmem : Square.Piece pq ∈ w := by
          have hopt : Square.Piece pq ∈ w.getLast? := by
            rw [hq]
            rfl
          obtain ⟨hne, heq⟩ := List.mem_getLast?_eq_getLast hopt
          rw [heq]
          exact List.getLast_mem hne
        obtain ⟨x, hx⟩ := List.length_eq_one.mp hded
        intro s hs
        have hsx : s = x := by
          have hmd := List.mem_dedup.mpr hs
          rw [hx] at hmd
          simpa using hmd
        have hpx : Square.Piece pq = x := by
          have hmd := List.mem_dedup.mpr hmem
          rw [hx] at hmd
          simpa using hmd
        rw [hsx, ← hpx]
      | Empty => cases h
  case isFalse => cases h

theorem winner_some_window {b : Board} {p : Player}
    (h : Board.winner b = some p) :
    ∃ wi : List (Nat × Nat), wi.length = 4 ∧ wi.Nodup ∧ dirOk wi = true
      ∧ ∀ rc ∈ wi, rc ∈ allCells ∧ b rc.1 rc.2 = Square.Piece p := by
  rw [Board.winner] at h
  obtain ⟨line, hline_mem, hconn⟩ := List.exists_of_findSome?_eq_some h
  have hline : line ∈ Board.lines b := (List.mem_filter.mp hline_mem).1
  obtain ⟨il, hil, hlineq⟩ := List.mem_map.mp hline
  rw [connect4] at hconn
  obtain ⟨w, hw_mem, hw_win⟩ := List.exists_of_findSome?_eq_some hconn
  rw [← hlineq] at hw_mem
  obtain ⟨hwlen, hwinf⟩ := windows4_mem_spec _ w hw_mem
  have hall : ∀ s ∈ w, s = Square.Piece p := winOf_spec hw_win
  obtain ⟨wi, hwi_inf, hwi_map⟩ := map_window_preimage _ il w hwinf
  have hwi_len : wi.length = 4 := by
    have hl := congrArg List.length hwi_map
    rw [List.length_map] at hl
    omega
  have hwi_nodup : wi.Nodup :=
    List.Sublist.nodup hwi_inf.sublist (lineIdx_nodup il hil)
  have hwi_windows : wi ∈ windows4 il := infix_mem_windows4 il wi hwi_inf hwi_len
  refine ⟨wi, hwi_len, hwi_nodup, lineIdx_windows_dirOk il hil wi hwi_windows, ?_⟩
  intro rc hrc
  refine ⟨lineIdx_cells il hil rc (hwi_inf.subset hrc), ?_⟩
  have hbw : b rc.1 rc.2 ∈ w := hwi_map ▸ List.mem_map_of_mem _ hrc
  exact hall _ hbw

theorem dirOk_hasLineWin {b : Board} {p : Player} (wi : List (Nat × Nat))
    (hdir : dirOk wi = true)
    (hall : ∀ rc ∈ wi, b rc.1 rc.2 = Square.Piece p) :
    hasLineWin b p := by
  match wi, hdir, hall with
  | [(r1, c1), (r2, c2), (r3, c3), (r4, c4)], hdir, hall =>
    simp only [dirOk, Bool.and_eq_true, Bool.or_eq_true, decide_eq_true_eq]
      at hdir
    obtain ⟨⟨hb1, hb4, hbc1, hbc4⟩, hcases⟩ := hdir
    have e1 := hall (r1, c1) (by simp)
    have e2 := hall (r2, c2) (by simp)
    have e3 := hall (r3, c3) (by simp)
    have e4 := hall (r4, c4) (by simp)
    simp only at e1 e2 e3 e4
    rcases hcases with ((((h | h) | h) | h) | h)
    · obtain ⟨hr2, hr3, hr4, hc2, hc3, hc4⟩ := h
      refine Or.inl ⟨r1, c1, by omega, by omega, ?_⟩
      intro k hk
      interval_cases k
      · convert e1 using 3 <;> omega
      · convert e2 using 3 <;> omega
      · convert e3 using 3 <;> omega
      · convert e4 using 3 <;> omega
    · obtain ⟨hc2, hc3, hc4, hr2, hr3, hr4⟩ := h
      refine Or.inr (Or.inl ⟨r1, c1, by omega, by omega, ?_⟩)
      intro k hk
      interval_cases k
      · convert e1 using 3 <;> omega
      · convert e2 using 3 <;> omega
      · convert e3 using 3 <;> omega
      · convert e4 using 3 <;> omega
    · obtain ⟨hr2, hr3, hr4, hc2, hc3, hc4⟩ := h
      refine Or.inr (Or.inr (Or.inl ⟨r1, c1, by omega, by omega, ?_⟩))
      intro k hk
      interval_cases k
      · convert e1 using 3 <;> omega
      · convert e2 using 3 <;> omega
      · convert e3 using 3 <;> omega
      · convert e4 using 3 <;> omega
    · obtain ⟨hr1, hr2, hr3, hc2, hc3, hc4⟩ := h
      refine Or.inr (Or.inr (Or.inr ⟨r4, c1, by omega, by omega, ?_⟩))
      intro k hk
      interval_cases k
      · convert e4 using 3 <;> omega
      · convert e3 using 3 <;> omega
      · convert e2 using 3 <;> omega
      · convert e1 using 3 <;> omega
    · obtain ⟨hr2, hr3, hr4, hc1, hc2, hc3⟩ := h
      refine Or.inr (Or.inr (Or.inr ⟨r1, c4, by omega, by omega, ?_⟩))
      intro k hk
      interval_cases k
      · convert e1 using 3 <;> omega
      · convert e2 using 3 <;> omega
      · convert e3 using 3 <;> omega
      · convert e4 using 3 <;> omega
  | [], hdir, _ => exact Bool.noConfusion hdir
  | [x], hdir, _ => exact Bool.noConfusion hdir
  | [x, y], hdir, _ => exact Bool.noConfusion hdir
  | [x, y, z], hdir, _ => exact Bool.noConfusion hdir
  | x :: y :: z :: u :: v :: rest, hdir, _ => exact Bool.noConfusion hdir

theorem window_count_le {b : Board} {p : Player} {wi : List (Nat × Nat)}
    (hlen : wi.length = 4) (hnd : wi.Nodup)
    (hall : ∀ rc ∈ wi, rc ∈ allCells ∧ b rc.1 rc.2 = Square.Piece p) :
    4 ≤ Board.count b p := by
  rw [Board.count, List.countP_eq_length_filter]
  have hsub : wi ⊆ allCells.filter fun rc => decide (b rc.1 rc.2 = Square.Piece p) := by
    intro rc hrc
    rw [List.mem_filter]
    obtain ⟨h1, h2⟩ := hall rc hrc
    exact ⟨h1, by simpa using h2⟩
  have hle := (hnd.subperm hsub).length_le
  omega

/-- Claim C4: `Board::winner` returns `some p` only when some row, column
or diagonal of the grid holds a window of 4 consecutive cells all equal to
`p`'s piece (which forces `p` to own at least 4 pieces); consequently it
is `none` on the empty board and on every board where each owner has
placed fewer than 4 pieces. -/
theorem winner_sound (b : Board) :
    (∀ p, Board.winner b = some p → hasLineWin b p ∧ 4 ≤ Board.count b p)
    ∧ Board.winner Board.new = none
    ∧ ((∀ p, Board.count b p < 4) → Board.winner b = none) := by
  have hmain : ∀ p, Board.winner b = some p →
      hasLineWin b p ∧ 4 ≤ Board.count b p := by
    intro p h
    obtain ⟨wi, hlen, hnd, hdir, hall⟩ := winner_some_window h
    exact ⟨dirOk_hasLineWin wi hdir fun rc hrc => (hall rc hrc).2,
      window_count_le hlen hnd hall⟩
  refine ⟨hmain, by decide, ?_⟩
  intro hlt
  rcases hw : Board.winner b with _ | p
  · rfl
  · have h4 := (hmain p hw).2
    have hlt' := hlt p
    omega

/-- Witness for `winner_sound` at the new board: both owners have fewer
than 4 pieces, and the winner scan returns `none`. -/
theorem winner_sound_witness :
    (∀ p, Board.count Board.new p < 4) ∧ Board.winner Board.new = none :=
  ⟨by decide, (winner_sound Board.new).2.2 (by decide)⟩
